/-
Verification of the netback repository's core logic: the output filtering
pipeline (secret redaction, residual interrupt replacement, line commenting),
the interactive session read loop with interrupt ("expect") rules, model-file
validation, and the per-device backup orchestration.

Texts are modelled as lists of characters (`Str`).  Go's regular-expression
values are modelled by the abstract structure `Regexp` carrying the two
operations the source uses (`MatchString` and `ReplaceAllString`); the
external `regexp.Compile` of the Go standard library is an abstract parameter
`compile : Str → Option Regexp` (`none` models a compile error).  A concrete
instance `litCompile`, interpreting a pattern as a literal substring, is used
to evaluate theorems on concrete inputs.
-/
import Mathlib

namespace Netback

/-- Texts are lists of characters. -/
abbrev Str := List Char

/-- Convenience conversion from a string literal to `Str`. -/
def str (s : String) : Str := s.data

/-- Go `strings.Split(s, "\n")`: the list of newline-separated lines of `s`.
`splitOnNl []` is `[[]]`, matching Go's `Split("", "\n") = [""]`. -/
def splitOnNl : Str → List Str
  | [] => [[]]
  | c :: rest =>
    match splitOnNl rest with
    | [] => [[c]]
    | l :: ls => if c = '\n' then [] :: l :: ls else (c :: l) :: ls

/-- Go `strings.Join(lines, "\n")`. -/
def joinNl : List Str → Str
  | [] => []
  | [l] => l
  | l :: ls => l ++ '\n' :: joinNl ls

/-- Abstract regular-expression value: the two operations the source uses on a
compiled `*regexp.Regexp` (`MatchString` and `ReplaceAllString src repl`). -/
structure Regexp where
  matchString : Str → Bool
  replaceAllString : Str → Str → Str

/-- `regexp.Compile` of the Go standard library, as an abstract parameter;
`none` models a compile error. -/
abbrev CompileFn := Str → Option Regexp

/-- config.ExpectRule: `{Pattern, Send, Replace}`. -/
structure ExpectRule where
  pat : Str
  send : Str
  replace : Str
deriving DecidableEq

/-- config.FilterRule: `{Pattern, Replace}` (secrets). -/
structure FilterRule where
  pat : Str
  replace : Str
deriving DecidableEq

/-- config.Model: a device model definition. -/
structure Model where
  prompt : Str
  comment : Str
  postLogin : List Str
  preLogout : Str
  expect : List ExpectRule
  secrets : List FilterRule
  comments : List Str
  commands : List Str
deriving DecidableEq

/-- config.Device (the fields the orchestration logic reads). -/
structure Device where
  name : Str
  ip : Str
  model : Str
  group : Str
deriving DecidableEq

/-- The error values the modelled code can produce. -/
inductive BErr where
  | noModels
  | promptRequired (name : Str)
  | promptPatternBad (p : Str)
  | expectPatternBad (p : Str)
  | secretPatternBad (p : Str)
  | commandsRequired (name : Str)
  | modelNotFound (name : Str)
  | connectFailed
  | timeout
  | streamFault
  | commentCmdFailed (cmd : Str) (e : BErr)
  | cmdFailed (cmd : Str) (e : BErr)
  | writeFailed
deriving DecidableEq

/-- executor.commentAllLines: prefixes each non-empty line with the comment
string; empty output or empty comment string is returned unchanged. -/
def commentAllLines (output cp : Str) : Str :=
  if output = [] ∨ cp = [] then output
  else joinNl ((splitOnNl output).map (fun l => if l = [] then l else cp ++ l))

/-- The `firstIdx` scan of executor.commentFirstLastLines: index of the first
non-empty line, if any. -/
def firstNonEmptyIdx : List Str → Option Nat
  | [] => none
  | l :: rest => if l = [] then (firstNonEmptyIdx rest).map (fun i => i + 1) else some 0

/-- The `lastIdx` scan of executor.commentFirstLastLines: index of the last
non-empty line, if any (a backwards scan in the source). -/
def lastNonEmptyIdx (lines : List Str) : Option Nat :=
  (firstNonEmptyIdx lines.reverse).map (fun j => lines.length - 1 - j)

/-- executor.commentFirstLastLines: comments only the first and the last
non-empty line (the latter only when distinct from the former). -/
def commentFirstLastLines (output cp : Str) : Str :=
  if output = [] ∨ cp = [] then output
  else
    let lines := splitOnNl output
    if lines.length = 0 then output
    else
      match firstNonEmptyIdx lines with
      | none => output
      | some firstIdx =>
        let lastIdx := (lastNonEmptyIdx lines).getD 0
        let lines1 := lines.set firstIdx (cp ++ lines.getD firstIdx [])
        let lines2 :=
          if lastIdx ≠ firstIdx then lines1.set lastIdx (cp ++ lines1.getD lastIdx [])
          else lines1
        joinNl lines2

/-- Number of non-empty lines of a text. -/
def nonEmptyLineCount (t : Str) : Nat :=
  (splitOnNl t).countP (fun l => !l.isEmpty)

/-- executor.applySecrets: applies each secret rule's pattern/replacement in
declared order; a pattern that fails to compile is an error. -/
def applySecrets (compile : CompileFn) (output : Str) : List FilterRule → Except BErr Str
  | [] => .ok output
  | r :: rest =>
    match compile r.pat with
    | none => .error (.secretPatternBad r.pat)
    | some re => applySecrets compile (re.replaceAllString output r.replace) rest

/-- executor.applyExpectReplacements: reapplies expect-rule substitutions to a
captured output; a rule with empty Replace and non-empty Send is skipped. -/
def applyExpectReplacements (compile : CompileFn) (output : Str) :
    List ExpectRule → Except BErr Str
  | [] => .ok output
  | r :: rest =>
    if r.replace = [] ∧ r.send ≠ [] then applyExpectReplacements compile output rest
    else
      match compile r.pat with
      | none => .error (.expectPatternBad r.pat)
      | some re => applyExpectReplacements compile (re.replaceAllString output r.replace) rest

/-- executor.processOutput: secrets masking, then expect replacements. -/
def processOutput (compile : CompileFn) (rawOutput : Str) (model : Model) : Except BErr Str := do
  let o ← applySecrets compile rawOutput model.secrets
  applyExpectReplacements compile o model.expect

/-- One of the two per-command loops of executor.Execute: process each raw
output, apply the given commenting function, and keep the part only if it is
non-empty; the first processing error aborts. -/
def processParts (compile : CompileFn) (model : Model) (f : Str → Str) :
    List Str → Except BErr (List Str)
  | [] => .ok []
  | o :: rest => do
    let p ← processOutput compile o model
    let q := f p
    let ps ← processParts compile model f rest
    if q = [] then pure ps else pure (q :: ps)

/-- The output-assembly part of executor.Execute: comments outputs (all lines
commented), then commands outputs (first and last lines commented), joined
with a single newline. -/
def buildOutput (compile : CompileFn) (model : Model) (commentsOutputs commandsOutputs : List Str) :
    Except BErr Str := do
  let a ← processParts compile model (fun s => commentAllLines s model.comment) commentsOutputs
  let b ← processParts compile model (fun s => commentFirstLastLines s model.comment) commandsOutputs
  pure (joinNl (a ++ b))

/-- executor.Result: output text and error of one device run. -/
structure RResult where
  output : Str
  error : Option BErr
deriving DecidableEq

/-- executor.Execute, given the transport outcome: on a transport error the
result records the error and the output stays empty; otherwise the filtered
parts are assembled (a processing error again leaves the output empty). -/
def ExecuteR (compile : CompileFn) (model : Model)
    (tr : Except BErr (List Str × List Str)) : RResult :=
  match tr with
  | .error e => ⟨[], some e⟩
  | .ok (cos, cms) =>
    match buildOutput compile model cos cms with
    | .error e => ⟨[], some e⟩
    | .ok out => ⟨out, none⟩

/-- transport.Session.processExpectRules: evaluates each expect rule against
the current buffer contents in declared order.  Returns the possibly rewritten
contents, the list of texts sent to the stream (in order), and the `handled`
flag.  A rule whose pattern fails to compile is skipped at runtime. -/
def processExpectRules (compile : CompileFn) (content : Str) :
    List ExpectRule → Str × List Str × Bool
  | [] => (content, [], false)
  | r :: rest =>
    match compile r.pat with
    | none => processExpectRules compile content rest
    | some re =>
      if re.matchString content then
        let sent : List Str := if r.send = [] then [] else [r.send]
        if r.replace ≠ [] ∨ r.send ≠ [] then
          let out := processExpectRules compile (re.replaceAllString content r.replace) rest
          (out.1, sent ++ out.2.1, true)
        else
          let out := processExpectRules compile content rest
          (out.1, sent ++ out.2.1, out.2.2)
      else processExpectRules compile content rest

/-- One read event of the remote stream: a chunk of data that becomes
available at (absolute) time `t`, end of stream, or a read fault. -/
inductive ReadEvent where
  | chunk (t : Nat) (data : Str)
  | eof
  | fault

/-- Outcome of transport.Session.readUntil: the accumulated text, the list of
texts written to the stream by expect rules, and the way the loop ended.
`diverged` marks exhaustion of the iteration bound, which never happens for a
stream whose read times advance. -/
inductive ReadOutcome where
  | ok (text : Str) (sends : List Str)
  | timeout (text : Str) (sends : List Str)
  | streamFault (text : Str) (sends : List Str)
  | diverged
deriving DecidableEq

/-- transport.Session.readUntil: accumulates stream chunks into the buffer,
runs the expect rules on every non-empty chunk, and stops when the pattern
matches the (possibly rewritten) buffer, the deadline passes, the stream ends,
or a read fault occurs.  Wall-clock time is modelled by the timestamps of the
stream's read events (the `i`-th read returns at time `t`); `fuel` bounds the
number of loop iterations and only exists to make the recursion structural. -/
def readUntil (compile : CompileFn) (rules : List ExpectRule) (pat : Regexp)
    (stream : Nat → ReadEvent) (deadline : Nat) :
    Nat → Nat → Nat → Str → List Str → ReadOutcome
  | 0, _, _, _, _ => .diverged
  | fuel + 1, i, now, buffer, sends =>
    if deadline < now then .timeout buffer sends
    else
      match stream i with
      | .eof => .ok buffer sends
      | .fault => .streamFault buffer sends
      | .chunk t d =>
        if d = [] then readUntil compile rules pat stream deadline fuel (i + 1) t buffer sends
        else
          let pr := processExpectRules compile (buffer ++ d) rules
          let buf2 := if pr.2.2 then pr.1 else buffer ++ d
          if pat.matchString buf2 then .ok buf2 (sends ++ pr.2.1)
          else readUntil compile rules pat stream deadline fuel (i + 1) t buf2 (sends ++ pr.2.1)

/-- The per-command loops of transport.ConnectAndExecute: `outcomes n` is the
result of the `n`-th `session.Execute` call of the session (the session is a
live remote shell, so the outcome is indexed by call position, not by command
text).  The first failing command aborts the loop and its error is wrapped
with the command that failed. -/
def runCmds (wrap : Str → BErr → BErr) (outcomes : Nat → Except BErr Str) :
    Nat → List Str → Except BErr (List Str)
  | _, [] => .ok []
  | idx, c :: rest =>
    match outcomes idx with
    | .error e => .error (wrap c e)
    | .ok o =>
      match runCmds wrap outcomes (idx + 1) rest with
      | .error e2 => .error e2
      | .ok os => .ok (o :: os)

/-- transport.ConnectAndExecute: connect (dial, handshake, initial prompt and
post-login, collapsed into the `connect` outcome), then every comments command,
then every commands command; each phase aborts on its first error.  The Go
function returns the partial comments outputs next to a command-phase error;
the caller (executor.Execute) discards them when the error is non-nil, so the
model collapses the pair-with-error into `Except.error`. -/
def ConnectAndExecuteM (connect : Except BErr Unit) (outcomes : Nat → Except BErr Str)
    (model : Model) : Except BErr (List Str × List Str) :=
  match connect with
  | .error e => .error e
  | .ok _ =>
    match runCmds BErr.commentCmdFailed outcomes 0 model.comments with
    | .error e => .error e
    | .ok cos =>
      match runCmds BErr.cmdFailed outcomes model.comments.length model.commands with
      | .error e => .error e
      | .ok cms => .ok (cos, cms)

/-- Result entry collected by main.executeBackups for one device. -/
structure DResult where
  device : Device
  output : Str
  error : Option BErr
deriving DecidableEq

/-- The per-device goroutine body of main.executeBackups: run the backup, and
on success write the output (a write failure converts the success into a
failure). -/
def runDeviceTask (execute : Device → Model → RResult)
    (write : Device → Str → Option BErr) (d : Device) (m : Model) : DResult :=
  let r := execute d m
  match r.error with
  | some e => ⟨d, r.output, some e⟩
  | none =>
    match write d r.output with
    | some we => ⟨d, r.output, some we⟩
    | none => ⟨d, r.output, none⟩

/-- main.executeBackups: one result per device; a device whose model name is
not in the loaded model set gets an immediate model-not-found result without
the task body ever running.  The channel collects results in completion order;
the model fixes the declared device order, which carries the same multiset of
results. -/
def executeBackupsM (models : Str → Option Model) (devices : List Device)
    (execute : Device → Model → RResult) (write : Device → Str → Option BErr) :
    List DResult :=
  devices.map fun d =>
    match models d.model with
    | none => ⟨d, [], some (.modelNotFound d.model)⟩
    | some m => runDeviceTask execute write d m

/-- The expect-rule loop of config.validateModelFile. -/
def validateExpectRules (compile : CompileFn) : List ExpectRule → Except BErr Unit
  | [] => .ok ()
  | r :: rest =>
    match compile r.pat with
    | none => .error (.expectPatternBad r.pat)
    | some _ => validateExpectRules compile rest

/-- The secret-rule loop of config.validateModelFile. -/
def validateSecretRules (compile : CompileFn) : List FilterRule → Except BErr Unit
  | [] => .ok ()
  | r :: rest =>
    match compile r.pat with
    | none => .error (.secretPatternBad r.pat)
    | some _ => validateSecretRules compile rest

/-- The per-model loop of config.validateModelFile. -/
def validateModels (compile : CompileFn) : List (Str × Model) → Except BErr Unit
  | [] => .ok ()
  | (name, m) :: rest =>
    if m.prompt = [] then .error (.promptRequired name)
    else
      match compile m.prompt with
      | none => .error (.promptPatternBad m.prompt)
      | some _ =>
        match validateExpectRules compile m.expect with
        | .error e => .error e
        | .ok _ =>
          match validateSecretRules compile m.secrets with
          | .error e => .error e
          | .ok _ =>
            if m.commands = [] then .error (.commandsRequired name)
            else validateModels compile rest

/-- config.validateModelFile over the parsed model map (as an association
list; Go's map iteration order only permutes which error is reported first,
not whether validation succeeds). -/
def validateModelFile (compile : CompileFn) (models : List (Str × Model)) : Except BErr Unit :=
  if models = [] then .error .noModels
  else validateModels compile models

/-- config.LoadModelFile after YAML parsing: validation gates the loaded
model set. -/
def LoadModelFileM (compile : CompileFn) (parsed : List (Str × Model)) :
    Except BErr (List (Str × Model)) :=
  match validateModelFile compile parsed with
  | .error e => .error e
  | .ok _ => .ok parsed

/-- Model lookup in the loaded model set (Go `modelFile.Models[device.Model]`). -/
def findModel (mf : List (Str × Model)) (name : Str) : Option Model :=
  (mf.find? (fun p => decide (p.1 = name))).map (fun p => p.2)

/-- The model-file half of main: load (validation included) and only then run
the backups; a load error aborts before any device task exists. -/
def runMain (compile : CompileFn) (parsed : List (Str × Model)) (devices : List Device)
    (execute : Device → Model → RResult) (write : Device → Str → Option BErr) :
    Except BErr (List DResult) :=
  match LoadModelFileM compile parsed with
  | .error e => .error e
  | .ok mf => .ok (executeBackupsM (findModel mf) devices execute write)

/-- Spec-side redact(text, secretRules): each rule's substitution in declared
order, as a total function (rules whose pattern does not compile cannot occur
in a validated model and are ignored here). -/
def redactTotal (compile : CompileFn) (secrets : List FilterRule) (t : Str) : Str :=
  secrets.foldl
    (fun acc r =>
      match compile r.pat with
      | none => acc
      | some re => re.replaceAllString acc r.replace) t

/-- Spec-side apply-residual-interrupt-replacements(text, interruptRules) as a
total function, skipping rules with empty replacement and non-empty send. -/
def residualTotal (compile : CompileFn) (expects : List ExpectRule) (t : Str) : Str :=
  expects.foldl
    (fun acc r =>
      if r.replace = [] ∧ r.send ≠ [] then acc
      else
        match compile r.pat with
        | none => acc
        | some re => re.replaceAllString acc r.replace) t

/-- Spec-side composition of the output filtering pipeline (section 4.2 of the
specification): redact, residual interrupt replacement, then annotate-all-lines
for annotation commands and annotate-boundary-lines for capture commands, each
part kept only when non-empty, all joined by single newlines with
annotation-command parts first. -/
def pipelineSpec (compile : CompileFn) (model : Model)
    (commentsOutputs commandsOutputs : List Str) : Str :=
  let proc := fun t => residualTotal compile model.expect (redactTotal compile model.secrets t)
  joinNl
    (((commentsOutputs.map (fun t => commentAllLines (proc t) model.comment)).filter
        (fun s => !s.isEmpty)) ++
     ((commandsOutputs.map (fun t => commentFirstLastLines (proc t) model.comment)).filter
        (fun s => !s.isEmpty)))

/-- The output assembly with no annotation step at all: processed parts kept
when non-empty and joined by newlines.  Used to state that an empty comment
string disables annotation while redaction still applies. -/
def buildPlain (compile : CompileFn) (model : Model)
    (commentsOutputs commandsOutputs : List Str) : Except BErr Str := do
  let a ← processParts compile model id commentsOutputs
  let b ← processParts compile model id commandsOutputs
  pure (joinNl (a ++ b))

/-- Literal-substring replacement with an explicit iteration bound (the bound
`s.length` always suffices since every step consumes at least one character):
replaces each leftmost non-overlapping occurrence of `p :: pt` by `repl`. -/
def litReplaceAux (p : Char) (pt repl : Str) : Nat → Str → Str
  | 0, s => s
  | _ + 1, [] => []
  | fuel + 1, c :: rest =>
    if List.isPrefixOf (p :: pt) (c :: rest) then
      repl ++ litReplaceAux p pt repl fuel (rest.drop pt.length)
    else c :: litReplaceAux p pt repl fuel rest

/-- Literal-substring test: does `pat` occur as a contiguous run in `s`? -/
def litMatch (pat : Str) : Str → Bool
  | [] => List.isPrefixOf pat []
  | c :: rest => List.isPrefixOf pat (c :: rest) || litMatch pat rest

/-- A concrete compile function used to evaluate theorems on concrete inputs:
a non-empty pattern without `(` compiles to the literal-substring matcher (Go
regular expressions restricted to literal patterns behave exactly like this);
a pattern containing `(` fails to compile, like Go's unclosed group. -/
def litCompile : CompileFn := fun pat =>
  match pat with
  | [] => none
  | p :: pt =>
    if '(' ∈ (p :: pt) then none
    else
      some
        { matchString := fun s => litMatch (p :: pt) s
          replaceAllString := fun s repl => litReplaceAux p pt repl s.length s }

theorem splitOnNl_ne_nil (s : Str) : splitOnNl s ≠ [] := by
  induction s with
  | nil => simp [splitOnNl]
  | cons c rest ih =>
    simp only [splitOnNl]
    cases h : splitOnNl rest with
    | nil => simp
    | cons l ls =>
      by_cases hc : c = '\n' <;> simp [hc]

theorem not_nl_mem_splitOnNl (s : Str) : ∀ l ∈ splitOnNl s, '\n' ∉ l := by
  induction s with
  | nil => intro l hl; simp [splitOnNl] at hl; simp [hl]
  | cons c rest ih =>
    intro l hl
    simp only [splitOnNl] at hl
    cases h : splitOnNl rest with
    | nil => exact absurd h (splitOnNl_ne_nil rest)
    | cons l0 ls =>
      rw [h] at hl
      by_cases hc : c = '\n'
      · simp only [if_pos hc] at hl
        rcases List.mem_cons.mp hl with hl | hl
        · simp [hl]
        · exact ih l (h ▸ hl)
      · simp only [if_neg hc] at hl
        rcases List.mem_cons.mp hl with hl | hl
        · subst hl
          intro hmem
          rcases List.mem_cons.mp hmem with h1 | h1
          · exact hc h1.symm
          · exact ih l0 (h ▸ List.mem_cons_self _ _) h1
        · exact ih l (h ▸ List.mem_cons_of_mem _ hl)

theorem joinNl_splitOnNl (s : Str) : joinNl (splitOnNl s) = s := by
  induction s with
  | nil => simp [splitOnNl, joinNl]
  | cons c rest ih =>
    simp only [splitOnNl]
    cases h : splitOnNl rest with
    | nil => exact absurd h (splitOnNl_ne_nil rest)
    | cons l ls =>
      rw [h] at ih
      by_cases hc : c = '\n'
      · subst hc
        simp only [if_pos rfl]
        cases ls with
        | nil => simpa [joinNl] using ih
        | cons l2 ls2 => simpa [joinNl] using ih
      · simp only [if_neg hc]
        cases ls with
        | nil => simpa [joinNl] using congrArg (c :: ·) ih
        | cons l2 ls2 => simpa [joinNl] using congrArg (c :: ·) ih

theorem splitOnNl_append_of_not_nl (l : Str) (hl : '\n' ∉ l) (s : Str)
    (l2 : Str) (ls : List Str) (h : splitOnNl s = l2 :: ls) :
    splitOnNl (l ++ s) = (l ++ l2) :: ls := by
  induction l with
  | nil => simpa using h
  | cons c cs ih =>
    have hc : c ≠ '\n' := fun hcc => hl (hcc ▸ List.mem_cons_self _ _)
    have hcs : '\n' ∉ cs := fun hm => hl (List.mem_cons_of_mem _ hm)
    have ih2 := ih hcs
    show splitOnNl (c :: (cs ++ s)) = (c :: (cs ++ l2)) :: ls
    simp only [splitOnNl, ih2, if_neg hc]

theorem splitOnNl_joinNl (ls : List Str) (hne : ls ≠ [])
    (hnl : ∀ l ∈ ls, '\n' ∉ l) : splitOnNl (joinNl ls) = ls := by
  induction ls with
  | nil => exact absurd rfl hne
  | cons l rest ih =>
    cases rest with
    | nil =>
      show splitOnNl l = [l]
      have := splitOnNl_append_of_not_nl l (hnl l (List.mem_cons_self _ _)) []
        [] [] (by simp [splitOnNl])
      simpa using this
    | cons l2 rest2 =>
      have hrest : splitOnNl (joinNl (l2 :: rest2)) = l2 :: rest2 :=
        ih (by simp) (fun x hx => hnl x (List.mem_cons_of_mem _ hx))
      show splitOnNl (l ++ '\n' :: joinNl (l2 :: rest2)) = l :: l2 :: rest2
      have hmid : splitOnNl ('\n' :: joinNl (l2 :: rest2)) = [] :: l2 :: rest2 := by
        simp [splitOnNl, hrest]
      have := splitOnNl_append_of_not_nl l (hnl l (List.mem_cons_self _ _))
        ('\n' :: joinNl (l2 :: rest2)) [] (l2 :: rest2) hmid
      simpa using this

theorem length_splitOnNl_pos (s : Str) : 0 < (splitOnNl s).length :=
  List.length_pos.mpr (splitOnNl_ne_nil s)

theorem firstNonEmptyIdx_eq_none_iff (ls : List Str) :
    firstNonEmptyIdx ls = none ↔ ∀ l ∈ ls, l = [] := by
  induction ls with
  | nil => simp [firstNonEmptyIdx]
  | cons l rest ih =>
    by_cases hl : l = []
    · simp [firstNonEmptyIdx, hl, ih]
    · simp [firstNonEmptyIdx, hl]

theorem firstNonEmptyIdx_spec (ls : List Str) (i : Nat)
    (h : firstNonEmptyIdx ls = some i) :
    i < ls.length ∧ ls.getD i [] ≠ [] ∧ ∀ j, j < i → ls.getD j [] = [] := by
  induction ls generalizing i with
  | nil => simp [firstNonEmptyIdx] at h
  | cons l rest ih =>
    by_cases hl : l = []
    · rw [firstNonEmptyIdx, if_pos hl] at h
      rcases Option.map_eq_some'.mp h with ⟨i', hi', rfl⟩
      obtain ⟨h1, h2, h3⟩ := ih i' hi'
      refine ⟨by simpa using h1, by simpa using h2, ?_⟩
      intro j hj
      cases j with
      | zero => simpa using hl
      | succ j' => simpa using h3 j' (by omega)
    · rw [firstNonEmptyIdx, if_neg hl] at h
      have hi0 : i = 0 := (Option.some.inj h).symm
      subst hi0
      exact ⟨by simp, by simpa using hl, fun j hj => absurd hj (Nat.not_lt_zero j)⟩

theorem firstNonEmptyIdx_isSome_of (ls : List Str) (l : Str) (hmem : l ∈ ls) (hne : l ≠ []) :
    ∃ i, firstNonEmptyIdx ls = some i := by
  cases h : firstNonEmptyIdx ls with
  | some i => exact ⟨i, rfl⟩
  | none => exact absurd ((firstNonEmptyIdx_eq_none_iff ls).mp h l hmem) hne

theorem getD_reverse (ls : List Str) (s : Nat) (h : s < ls.length) :
    ls.reverse.getD s [] = ls.getD (ls.length - 1 - s) [] := by
  have h1 : s < ls.reverse.length := by simpa using h
  have h2 : ls.length - 1 - s < ls.length := by omega
  rw [List.getD_eq_getElem _ _ h1, List.getD_eq_getElem _ _ h2]
  exact List.getElem_reverse ..

theorem lastNonEmptyIdx_spec (ls : List Str) (j : Nat) (h : lastNonEmptyIdx ls = some j) :
    j < ls.length ∧ ls.getD j [] ≠ [] ∧ ∀ k, j < k → k < ls.length → ls.getD k [] = [] := by
  rcases Option.map_eq_some'.mp h with ⟨r, hr, rfl⟩
  obtain ⟨h1, h2, h3⟩ := firstNonEmptyIdx_spec _ _ hr
  rw [List.length_reverse] at h1
  rw [getD_reverse ls r h1] at h2
  refine ⟨by omega, h2, ?_⟩
  intro k hk hklen
  have hs : ls.length - 1 - k < r := by omega
  have hempty := h3 (ls.length - 1 - k) hs
  rw [getD_reverse ls _ (by omega)] at hempty
  rwa [show ls.length - 1 - (ls.length - 1 - k) = k by omega] at hempty

theorem lastNonEmptyIdx_isSome_of (ls : List Str) (l : Str) (hmem : l ∈ ls) (hne : l ≠ []) :
    ∃ j, lastNonEmptyIdx ls = some j := by
  obtain ⟨r, hr⟩ := firstNonEmptyIdx_isSome_of ls.reverse l (List.mem_reverse.mpr hmem) hne
  exact ⟨ls.length - 1 - r, by simp [lastNonEmptyIdx, hr]⟩

theorem getD_set_ne (l : List Str) (i j : Nat) (x : Str) (h : i ≠ j) :
    (l.set i x).getD j [] = l.getD j [] := by
  rw [List.getD_eq_getElem?_getD, List.getD_eq_getElem?_getD, List.getElem?_set_ne h]

theorem two_le_countP_of_two_idx (ls : List Str) (i j : Nat) (hij : i < j)
    (hj : j < ls.length) (hi2 : ls.getD i [] ≠ []) (hj2 : ls.getD j [] ≠ []) :
    2 ≤ ls.countP (fun l => !l.isEmpty) := by
  have hi : i < ls.length := lt_trans hij hj
  have hsplit : ls.take (i + 1) ++ ls.drop (i + 1) = ls := List.take_append_drop _ _
  have hcount : ls.countP (fun l => !l.isEmpty)
      = (ls.take (i + 1)).countP (fun l => !l.isEmpty)
        + (ls.drop (i + 1)).countP (fun l => !l.isEmpty) := by
    conv_lhs => rw [← hsplit]
    exact List.countP_append _ _ _
  have hlen1 : i < (ls.take (i + 1)).length := by
    rw [List.length_take]; omega
  have hmem1 : ls.getD i [] ∈ ls.take (i + 1) := by
    have : (ls.take (i + 1))[i] = ls[i] := List.getElem_take ..
    rw [List.getD_eq_getElem _ _ hi, ← this]
    exact List.getElem_mem hlen1
  have h1 : 0 < (ls.take (i + 1)).countP (fun l => !l.isEmpty) := by
    rw [List.countP_pos_iff]
    exact ⟨ls.getD i [], hmem1, by simpa [List.isEmpty_iff] using hi2⟩
  have hmem2 : ls.getD j [] ∈ ls.drop (i + 1) := by
    have hidx : (ls.drop (i + 1))[j - (i + 1)]? = ls[j]? := by
      rw [List.getElem?_drop]
      congr 1
      omega
    rw [List.getD_eq_getElem _ _ hj]
    exact List.mem_iff_getElem?.mpr ⟨j - (i + 1), by rw [hidx]; exact List.getElem?_eq_getElem hj⟩
  have h2 : 0 < (ls.drop (i + 1)).countP (fun l => !l.isEmpty) := by
    rw [List.countP_pos_iff]
    exact ⟨ls.getD j [], hmem2, by simpa [List.isEmpty_iff] using hj2⟩
  omega

theorem countP_eq_one_of_single (ls : List Str) (i : Nat) (hi : i < ls.length)
    (hne : ls.getD i [] ≠ []) (hbefore : ∀ j, j < i → ls.getD j [] = [])
    (hafter : ∀ k, i < k → k < ls.length → ls.getD k [] = []) :
    ls.countP (fun l => !l.isEmpty) = 1 := by
  have hsplit : ls.take i ++ ls.drop i = ls := List.take_append_drop _ _
  have hdrop : ls.drop i = ls[i] :: ls.drop (i + 1) := List.drop_eq_getElem_cons hi
  have hcount : ls.countP (fun l => !l.isEmpty)
      = (ls.take i).countP (fun l => !l.isEmpty)
        + ((ls[i] :: ls.drop (i + 1)).countP (fun l => !l.isEmpty)) := by
    conv_lhs => rw [← hsplit]
    rw [List.countP_append, hdrop]
  have htake : (ls.take i).countP (fun l => !l.isEmpty) = 0 := by
    rw [List.countP_eq_zero]
    intro a ha
    obtain ⟨k, hk, hka⟩ := List.mem_iff_getElem.mp ha
    have hk2 : k < i := by
      have := List.length_take i ls
      omega
    have : (ls.take i)[k] = ls[k] := List.getElem_take ..
    have hak : a = ls.getD k [] := by
      rw [List.getD_eq_getElem _ _ (by omega), ← this, hka]
    rw [hak, hbefore k hk2]
    simp
  have hdrop2 : (ls.drop (i + 1)).countP (fun l => !l.isEmpty) = 0 := by
    rw [List.countP_eq_zero]
    intro a ha
    obtain ⟨k, hk, hka⟩ := List.mem_iff_getElem.mp ha
    have hlen : (ls.drop (i + 1)).length = ls.length - (i + 1) := List.length_drop _ _
    have hidx : (ls.drop (i + 1))[k]? = ls[i + 1 + k]? := List.getElem?_drop ..
    have hk3 : i + 1 + k < ls.length := by omega
    have hget : a = ls.getD (i + 1 + k) [] := by
      have h4 : (ls.drop (i + 1))[k]? = some a := by
        rw [List.getElem?_eq_getElem hk, hka]
      rw [List.getD_eq_getElem _ _ hk3]
      have := hidx.symm.trans h4
      exact (Option.some.inj (by rwa [List.getElem?_eq_getElem hk3] at this)).symm
    rw [hget, hafter (i + 1 + k) (by omega) hk3]
    simp
  have hhead : (!List.isEmpty ls[i]) = true := by
    have hgi : ls[i] = ls.getD i [] := (List.getD_eq_getElem _ _ hi).symm
    rw [hgi]
    simpa [List.isEmpty_iff] using hne
  rw [hcount, htake, List.countP_cons, hdrop2]
  simp [hhead]

/-- C1 counterexample: an interrupt rule with neither send-text nor
replacement-text is not a no-op in applyExpectReplacements — the rule
`{pattern "x", send "", replace ""}` is not skipped and deletes the match,
turning "xy" into "y". -/
theorem applyExpectReplacements_double_empty_not_noop :
    applyExpectReplacements litCompile (str "xy") [⟨str "x", [], []⟩] = .ok (str "y") ∧
      str "y" ≠ str "xy" :=
  ⟨rfl, by decide⟩

/-- C1 (amended): in the residual interrupt-replacement pass, a rule with
send-text and no replacement-text (a send-only rule) is skipped, and any list
of send-only rules leaves every text unchanged; every other rule whose pattern
compiles has its substitution applied with its (possibly empty) replacement
text — in particular a rule with neither send-text nor replacement-text is not
skipped and replaces its matches with the empty text. -/
theorem applyExpectReplacements_skip_characterization :
    ∀ (compile : CompileFn) (output : Str) (r : ExpectRule) (rest : List ExpectRule),
      (r.replace = [] → r.send ≠ [] →
        applyExpectReplacements compile output (r :: rest) =
          applyExpectReplacements compile output rest) ∧
      (∀ re, ¬(r.replace = [] ∧ r.send ≠ []) → compile r.pat = some re →
        applyExpectReplacements compile output (r :: rest) =
          applyExpectReplacements compile (re.replaceAllString output r.replace) rest) ∧
      (∀ rules : List ExpectRule, (∀ r2 ∈ rules, r2.replace = [] ∧ r2.send ≠ []) →
        applyExpectReplacements compile output rules = .ok output) := by
  intro compile output r rest
  refine ⟨?_, ?_, ?_⟩
  · intro h1 h2
    rw [applyExpectReplacements, if_pos ⟨h1, h2⟩]
  · intro re hnot hc
    rw [applyExpectReplacements, if_neg hnot, hc]
  · intro rules hall
    induction rules with
    | nil => rfl
    | cons r2 rest2 ih =>
      rw [applyExpectReplacements, if_pos (hall r2 (List.mem_cons_self _ _))]
      exact ih fun r3 h3 => hall r3 (List.mem_cons_of_mem _ h3)

/-- C1 witness: a list of two send-only rules leaves the text unchanged. -/
theorem applyExpectReplacements_skip_witness :
    applyExpectReplacements litCompile (str "ab")
      [⟨str "a", str "q", []⟩, ⟨str "b", str "s", []⟩] = .ok (str "ab") :=
  (applyExpectReplacements_skip_characterization litCompile (str "ab")
      ⟨str "a", str "q", []⟩ []).2.2
    [⟨str "a", str "q", []⟩, ⟨str "b", str "s", []⟩] (by decide)

/-- C2: with a non-empty comment string, commentFirstLastLines returns the
input unchanged when no line is non-empty; prefixes exactly the single
non-empty line (once, not twice) when there is exactly one; and prefixes
exactly the first and the last non-empty lines, which are distinct, when there
are two or more. -/
theorem commentFirstLastLines_boundary_spec (T P : Str) (hP : P ≠ []) :
    (nonEmptyLineCount T = 0 → commentFirstLastLines T P = T) ∧
    (nonEmptyLineCount T = 1 →
      ∃ i, firstNonEmptyIdx (splitOnNl T) = some i ∧
        lastNonEmptyIdx (splitOnNl T) = some i ∧
        commentFirstLastLines T P =
          joinNl ((splitOnNl T).set i (P ++ (splitOnNl T).getD i []))) ∧
    (2 ≤ nonEmptyLineCount T →
      ∃ i j, firstNonEmptyIdx (splitOnNl T) = some i ∧
        lastNonEmptyIdx (splitOnNl T) = some j ∧ i ≠ j ∧
        commentFirstLastLines T P =
          joinNl (((splitOnNl T).set i (P ++ (splitOnNl T).getD i [])).set j
            (P ++ (splitOnNl T).getD j []))) := by
  have hlenpos := length_splitOnNl_pos T
  refine ⟨?_, ?_, ?_⟩
  · intro h0
    have hall : ∀ l ∈ splitOnNl T, l = [] := by
      intro l hl
      have := List.countP_eq_zero.mp h0 l hl
      simpa [List.isEmpty_iff] using this
    have hfn : firstNonEmptyIdx (splitOnNl T) = none :=
      (firstNonEmptyIdx_eq_none_iff _).mpr hall
    by_cases hT : T = [] ∨ P = []
    · rw [commentFirstLastLines, if_pos hT]
    · rw [commentFirstLastLines, if_neg hT]
      simp only [hfn]
      rw [if_neg (by omega)]
  · intro h1
    obtain ⟨l, hmem, hql⟩ := List.countP_pos_iff.mp (by omega : 0 < nonEmptyLineCount T)
    have hlne : l ≠ [] := by simpa [List.isEmpty_iff] using hql
    obtain ⟨i, hfi⟩ := firstNonEmptyIdx_isSome_of _ l hmem hlne
    obtain ⟨j, hlj⟩ := lastNonEmptyIdx_isSome_of _ l hmem hlne
    obtain ⟨hi1, hi2, hi3⟩ := firstNonEmptyIdx_spec _ _ hfi
    obtain ⟨hj1, hj2, hj3⟩ := lastNonEmptyIdx_spec _ _ hlj
    have hij : j = i := by
      by_contra hne
      have hij' : i < j := by
        rcases Nat.lt_or_ge j i with hlt | hge
        · exact absurd (hi3 j hlt) hj2
        · omega
      have := two_le_countP_of_two_idx _ i j hij' hj1 hi2 hj2
      have h1' : (splitOnNl T).countP (fun l => !l.isEmpty) = 1 := h1
      omega
    subst hij
    refine ⟨j, hfi, hlj, ?_⟩
    have hTne : T ≠ [] := by
      intro hT
      subst hT
      simp [nonEmptyLineCount, splitOnNl] at h1
    rw [commentFirstLastLines, if_neg (by simp [hTne, hP])]
    simp only [hfi, hlj]
    rw [if_neg (by omega)]
    simp only [Option.getD_some]
    rw [if_neg (by simp)]
  · intro h2
    obtain ⟨l, hmem, hql⟩ := List.countP_pos_iff.mp (by omega : 0 < nonEmptyLineCount T)
    have hlne : l ≠ [] := by simpa [List.isEmpty_iff] using hql
    obtain ⟨i, hfi⟩ := firstNonEmptyIdx_isSome_of _ l hmem hlne
    obtain ⟨j, hlj⟩ := lastNonEmptyIdx_isSome_of _ l hmem hlne
    obtain ⟨hi1, hi2, hi3⟩ := firstNonEmptyIdx_spec _ _ hfi
    obtain ⟨hj1, hj2, hj3⟩ := lastNonEmptyIdx_spec _ _ hlj
    have hij : i ≠ j := by
      intro heq
      subst heq
      have := countP_eq_one_of_single _ i hi1 hi2 hi3 hj3
      have h2' : 2 ≤ (splitOnNl T).countP (fun l => !l.isEmpty) := h2
      omega
    refine ⟨i, j, hfi, hlj, hij, ?_⟩
    have hTne : T ≠ [] := by
      intro hT
      subst hT
      simp [nonEmptyLineCount, splitOnNl] at h2
    rw [commentFirstLastLines, if_neg (by simp [hTne, hP])]
    simp only [hfi, hlj]
    rw [if_neg (by omega)]
    simp only [Option.getD_some]
    rw [if_pos (Ne.symm hij)]
    rw [getD_set_ne _ _ _ _ hij]

/-- C2 witness: with three non-empty lines, exactly the first and last are
prefixed. -/
theorem commentFirstLastLines_boundary_witness :
    commentFirstLastLines (str "a\nb\nc") (str "! ") = str "! a\nb\n! c" := by
  obtain ⟨i, j, hf, hl, hne, heq⟩ :=
    (commentFirstLastLines_boundary_spec (str "a\nb\nc") (str "! ") (by decide)).2.2
      (by decide)
  have hi : i = 0 := by
    have h0 : firstNonEmptyIdx (splitOnNl (str "a\nb\nc")) = some 0 := by decide
    exact Option.some.inj (hf.symm.trans h0)
  have hj : j = 2 := by
    have h2 : lastNonEmptyIdx (splitOnNl (str "a\nb\nc")) = some 2 := by decide
    exact Option.some.inj (hl.symm.trans h2)
  subst hi hj
  exact heq.trans (by decide)

theorem splitOnNl_commentAllLines (t cp : Str) (hnl : '\n' ∉ cp) :
    splitOnNl (commentAllLines t cp) =
      (splitOnNl t).map (fun l => if l = [] then l else cp ++ l) := by
  by_cases h : t = [] ∨ cp = []
  · rw [commentAllLines, if_pos h]
    rcases h with h | h
    · subst h
      simp [splitOnNl]
    · subst h
      simp only [List.nil_append, ite_self]
      exact (List.map_id' _).symm
  · rw [commentAllLines, if_neg h]
    apply splitOnNl_joinNl
    · simp [splitOnNl_ne_nil t]
    · intro l2 hl2
      obtain ⟨l, hl, rfl⟩ := List.mem_map.mp hl2
      by_cases hle : l = []
      · simp [hle]
      · rw [if_neg hle]
        intro hmem
        rcases List.mem_append.mp hmem with hm | hm
        · exact hnl hm
        · exact not_nl_mem_splitOnNl t l hl hm

/-- C8 counterexample: with a prefix that itself contains a newline,
commentAllLines changes the number of lines (text of one line becomes two). -/
theorem commentAllLines_newline_prefix_counterexample :
    (splitOnNl (str "a")).length = 1 ∧
      (splitOnNl (commentAllLines (str "a") (str "\n"))).length = 2 := by
  constructor
  · rfl
  · rfl

/-- C8 (amended): for every text and every prefix that contains no newline
character, commentAllLines never changes the number of lines, every non-empty
line gains exactly one leading occurrence of the prefix, empty lines are
unchanged, and empty text or an empty prefix returns the input unchanged. -/
theorem commentAllLines_line_spec (t cp : Str) (hnl : '\n' ∉ cp) :
    (splitOnNl (commentAllLines t cp)).length = (splitOnNl t).length ∧
    (∀ i, i < (splitOnNl t).length →
      ((splitOnNl t).getD i [] = [] →
        (splitOnNl (commentAllLines t cp)).getD i [] = []) ∧
      ((splitOnNl t).getD i [] ≠ [] →
        (splitOnNl (commentAllLines t cp)).getD i [] = cp ++ (splitOnNl t).getD i [])) ∧
    ((t = [] ∨ cp = []) → commentAllLines t cp = t) := by
  have hmap := splitOnNl_commentAllLines t cp hnl
  refine ⟨by rw [hmap]; exact List.length_map _ _, ?_, ?_⟩
  · intro i hi
    have hgd : (splitOnNl (commentAllLines t cp)).getD i []
        = (fun l => if l = [] then l else cp ++ l) ((splitOnNl t).getD i []) := by
      rw [hmap]
      have hi2 : i < ((splitOnNl t).map (fun l => if l = [] then l else cp ++ l)).length := by
        simpa using hi
      rw [List.getD_eq_getElem _ _ hi2, List.getD_eq_getElem _ _ hi]
      exact List.getElem_map _
    constructor
    · intro hle
      rw [hgd, hle]
      simp
    · intro hlne
      rw [hgd]
      simp only [if_neg hlne]
  · intro h
    rw [commentAllLines, if_pos h]

/-- C8 witness: line count, non-empty-line prefixing and empty-line
preservation at a concrete text with an inner empty line. -/
theorem commentAllLines_line_witness :
    (splitOnNl (commentAllLines (str "a\n\nb") (str "! "))).length
        = (splitOnNl (str "a\n\nb")).length ∧
      (splitOnNl (commentAllLines (str "a\n\nb") (str "! "))).getD 1 [] = [] := by
  have h := commentAllLines_line_spec (str "a\n\nb") (str "! ") (by decide)
  exact ⟨h.1, (h.2.1 1 (by decide)).1 (by decide)⟩

theorem processParts_congr (compile : CompileFn) (model : Model) (f g : Str → Str)
    (h : ∀ s, f s = g s) :
    ∀ l, processParts compile model f l = processParts compile model g l := by
  intro l
  induction l with
  | nil => rfl
  | cons o rest ih =>
    rw [processParts, processParts, ih]
    simp only [h]

/-- C10: with an empty comment string both annotation functions return their
input unchanged, and the assembled output of a device run is exactly the
redacted (and residually substituted) parts with no annotation applied at all
(buildPlain still runs processOutput, so secret redaction still applies). -/
theorem empty_comment_no_annotation_spec :
    (∀ t : Str, commentAllLines t [] = t ∧ commentFirstLastLines t [] = t) ∧
    (∀ (compile : CompileFn) (model : Model) (cos cms : List Str),
      model.comment = [] →
        buildOutput compile model cos cms = buildPlain compile model cos cms) := by
  constructor
  · intro t
    constructor
    · rw [commentAllLines, if_pos (Or.inr rfl)]
    · rw [commentFirstLastLines, if_pos (Or.inr rfl)]
  · intro compile model cos cms hc
    rw [buildOutput, buildPlain]
    rw [processParts_congr compile model _ id
      (fun s => by rw [hc, commentAllLines, if_pos (Or.inr rfl)]; rfl) cos]
    rw [processParts_congr compile model _ id
      (fun s => by rw [hc, commentFirstLastLines, if_pos (Or.inr rfl)]; rfl) cms]

/-- C10 witness: a model with an empty comment string produces the unannotated
(but still processed) output. -/
theorem empty_comment_no_annotation_witness :
    commentFirstLastLines (str "a\nb") [] = str "a\nb" ∧
      buildOutput litCompile ⟨str "#", [], [], [], [], [⟨str "sec", str "XXX"⟩], [str "v"], [str "r"]⟩
          [str "sec1"] [str "run"]
        = buildPlain litCompile ⟨str "#", [], [], [], [], [⟨str "sec", str "XXX"⟩], [str "v"], [str "r"]⟩
          [str "sec1"] [str "run"] :=
  ⟨(empty_comment_no_annotation_spec.1 (str "a\nb")).2,
    empty_comment_no_annotation_spec.2 litCompile _ [str "sec1"] [str "run"] rfl⟩

theorem processExpectRules_not_handled (compile : CompileFn) (content : Str)
    (rules : List ExpectRule) (h : (processExpectRules compile content rules).2.2 = false) :
    (processExpectRules compile content rules).1 = content := by
  induction rules generalizing content with
  | nil => rfl
  | cons r rest ih =>
    rw [processExpectRules] at h ⊢
    cases hc : compile r.pat with
    | none =>
      rw [hc] at h
      exact ih content h
    | some re =>
      rw [hc] at h
      dsimp only at h ⊢
      by_cases hm : re.matchString content = true
      · rw [if_pos hm] at h ⊢
        by_cases hrs : r.replace ≠ [] ∨ r.send ≠ []
        · rw [if_pos hrs] at h
          simp at h
        · rw [if_neg hrs] at h ⊢
          exact ih content h
      · rw [if_neg hm] at h ⊢
        exact ih content h

/-- C3: during the read loop, each interrupt rule is evaluated against the
current buffer contents in declared order — a rule whose pattern fails to
compile or does not match is skipped; a matching rule with send-text puts its
send-text in front of the remaining sends; a matching rule with replacement
text or a send action substitutes all its matches and marks the buffer
handled; a matching rule with neither changes nothing.  A run that handled no
rule leaves the buffer unchanged, and in readUntil the prompt test (and the
continuation buffer) always uses the post-rewrite contents. -/
theorem processExpectRules_readUntil_spec :
    ∀ (compile : CompileFn) (content : Str) (r : ExpectRule) (rest : List ExpectRule),
      (compile r.pat = none →
        processExpectRules compile content (r :: rest) =
          processExpectRules compile content rest) ∧
      (∀ re, compile r.pat = some re → re.matchString content = false →
        processExpectRules compile content (r :: rest) =
          processExpectRules compile content rest) ∧
      (∀ re, compile r.pat = some re → re.matchString content = true → r.send ≠ [] →
        processExpectRules compile content (r :: rest) =
          ((processExpectRules compile (re.replaceAllString content r.replace) rest).1,
            r.send :: (processExpectRules compile (re.replaceAllString content r.replace) rest).2.1,
            true)) ∧
      (∀ re, compile r.pat = some re → re.matchString content = true → r.send = [] →
        r.replace ≠ [] →
        processExpectRules compile content (r :: rest) =
          ((processExpectRules compile (re.replaceAllString content r.replace) rest).1,
            (processExpectRules compile (re.replaceAllString content r.replace) rest).2.1,
            true)) ∧
      (∀ re, compile r.pat = some re → re.matchString content = true → r.send = [] →
        r.replace = [] →
        processExpectRules compile content (r :: rest) =
          processExpectRules compile content rest) ∧
      (∀ rules : List ExpectRule,
        (processExpectRules compile content rules).2.2 = false →
        (processExpectRules compile content rules).1 = content) ∧
      (∀ (rules : List ExpectRule) (pat : Regexp) (stream : Nat → ReadEvent)
          (deadline fuel i now t : Nat) (buffer : Str) (sends : List Str) (d : Str),
        ¬(deadline < now) → stream i = .chunk t d → d ≠ [] →
        readUntil compile rules pat stream deadline (fuel + 1) i now buffer sends =
          (if pat.matchString (processExpectRules compile (buffer ++ d) rules).1 then
            ReadOutcome.ok (processExpectRules compile (buffer ++ d) rules).1
              (sends ++ (processExpectRules compile (buffer ++ d) rules).2.1)
          else
            readUntil compile rules pat stream deadline fuel (i + 1) t
              (processExpectRules compile (buffer ++ d) rules).1
              (sends ++ (processExpectRules compile (buffer ++ d) rules).2.1))) := by
  intro compile content r rest
  refine ⟨?_, ?_, ?_, ?_, ?_, ?_, ?_⟩
  · intro hc
    rw [processExpectRules, hc]
  · intro re hc hm
    rw [processExpectRules, hc]
    dsimp only
    rw [if_neg (by simp [hm])]
  · intro re hc hm hs
    rw [processExpectRules, hc]
    dsimp only
    rw [if_pos hm, if_pos (Or.inr hs)]
    simp only [if_neg hs]
    rfl
  · intro re hc hm hs hr
    rw [processExpectRules, hc]
    dsimp only
    rw [if_pos hm, if_pos (Or.inl hr)]
    simp only [if_pos hs]
    rfl
  · intro re hc hm hs hr
    rw [processExpectRules, hc]
    dsimp only
    rw [if_pos hm,
      if_neg (by simp [hs, hr] : ¬(r.replace ≠ [] ∨ r.send ≠ []))]
    simp only [if_pos hs]
    rfl
  · intro rules h
    exact processExpectRules_not_handled compile content rules h
  · intro rules pat stream deadline fuel i now t buffer sends d hdl hstream hd
    have hbuf :
        (if (processExpectRules compile (buffer ++ d) rules).2.2 then
          (processExpectRules compile (buffer ++ d) rules).1
        else buffer ++ d) = (processExpectRules compile (buffer ++ d) rules).1 := by
      by_cases hh : (processExpectRules compile (buffer ++ d) rules).2.2
      · rw [if_pos hh]
      · rw [if_neg hh]
        exact (processExpectRules_not_handled compile (buffer ++ d) rules
          (by simpa using hh)).symm
    rw [readUntil, if_neg hdl, hstream]
    simp only [if_neg hd, hbuf]

/-- C3 witness: a pager rule (pattern "MORE", send " ", no replacement) on a
buffer containing the pattern sends the space and deletes the match; readUntil
then tests the prompt on the rewritten buffer. -/
theorem processExpectRules_readUntil_witness :
    processExpectRules litCompile (str "abMOREcd") [⟨str "MORE", str " ", []⟩]
      = (str "abcd", [str " "], true) := by
  have h :=
    (processExpectRules_readUntil_spec litCompile (str "abMOREcd")
        ⟨str "MORE", str " ", []⟩ []).2.2.1
      { matchString := fun s => litMatch (str "MORE") s
        replaceAllString := fun s repl => litReplaceAux 'M' (str "ORE") repl s.length s }
      rfl rfl (by decide)
  exact h.trans (by decide)

theorem readUntil_ne_diverged_aux (compile : CompileFn) (rules : List ExpectRule)
    (pat : Regexp) (stream : Nat → ReadEvent) (deadline : Nat)
    (hts : ∀ i t d, stream i = .chunk t d → i + 1 ≤ t) :
    ∀ fuel i now buffer sends, deadline + 2 ≤ fuel + i → i ≤ now → 1 ≤ fuel →
      readUntil compile rules pat stream deadline fuel i now buffer sends ≠ .diverged := by
  intro fuel
  induction fuel with
  | zero => intro i now b s h1 h2 h3; omega
  | succ fuel ih =>
    intro i now b s h1 h2 _
    rw [readUntil]
    by_cases hdl : deadline < now
    · rw [if_pos hdl]
      exact fun h => ReadOutcome.noConfusion h
    · rw [if_neg hdl]
      have hnow : now ≤ deadline := Nat.le_of_not_lt hdl
      have hfuel1 : 1 ≤ fuel := by omega
      cases hst : stream i with
      | eof => exact fun h => ReadOutcome.noConfusion h
      | fault => exact fun h => ReadOutcome.noConfusion h
      | chunk t d =>
        have ht := hts i t d hst
        dsimp only
        by_cases hd : d = []
        · rw [if_pos hd]
          exact ih (i + 1) t b s (by omega) (by omega) hfuel1
        · rw [if_neg hd]
          by_cases hm : pat.matchString
              (if (processExpectRules compile (b ++ d) rules).2.2 then
                (processExpectRules compile (b ++ d) rules).1
              else b ++ d) = true
          · rw [if_pos hm]
            exact fun h => ReadOutcome.noConfusion h
          · rw [if_neg hm]
            exact ih (i + 1) t _ _ (by omega) (by omega) hfuel1

theorem readUntil_timeout_aux (compile : CompileFn) (rules : List ExpectRule)
    (pat : Regexp) (stream : Nat → ReadEvent) (deadline : Nat)
    (hnm : ∀ s : Str, pat.matchString s = false)
    (hchunk : ∀ i, ∃ t d, stream i = .chunk t d) :
    ∀ fuel i now buffer sends,
      readUntil compile rules pat stream deadline fuel i now buffer sends = .diverged ∨
      ∃ txt ss,
        readUntil compile rules pat stream deadline fuel i now buffer sends
          = .timeout txt ss := by
  intro fuel
  induction fuel with
  | zero => intro i now b s; left; rfl
  | succ fuel ih =>
    intro i now b s
    rw [readUntil]
    by_cases hdl : deadline < now
    · rw [if_pos hdl]
      right
      exact ⟨b, s, rfl⟩
    · rw [if_neg hdl]
      obtain ⟨t, d, hst⟩ := hchunk i
      rw [hst]
      dsimp only
      by_cases hd : d = []
      · rw [if_pos hd]
        exact ih (i + 1) t b s
      · rw [if_neg hd]
        rw [if_neg (by simp [hnm])]
        exact ih (i + 1) t _ _

/-- C6: for every stream whose read times advance (each read returns strictly
after its index), readUntil with iteration bound deadline + 2 never exhausts
the bound: the loop terminates within the deadline plus two iterations of
slack.  If the pattern never matches and the stream always yields chunks, the
loop ends in a timeout; if the first chunk arrives within the deadline and
already matches the prompt pattern, the loop returns success with exactly the
accumulated text. -/
theorem readUntil_termination_spec :
    ∀ (compile : CompileFn) (rules : List ExpectRule) (pat : Regexp)
      (stream : Nat → ReadEvent) (deadline : Nat),
      (∀ i t d, stream i = .chunk t d → i + 1 ≤ t) →
      (readUntil compile rules pat stream deadline (deadline + 2) 0 0 [] [] ≠ .diverged) ∧
      ((∀ s : Str, pat.matchString s = false) → (∀ i, ∃ t d, stream i = .chunk t d) →
        ∃ txt ss,
          readUntil compile rules pat stream deadline (deadline + 2) 0 0 [] []
            = .timeout txt ss) ∧
      (∀ t d, stream 0 = .chunk t d → d ≠ [] → t ≤ deadline →
        pat.matchString d = true → rules = [] →
        readUntil compile rules pat stream deadline (deadline + 2) 0 0 [] []
          = .ok d []) := by
  intro compile rules pat stream deadline hts
  refine ⟨?_, ?_, ?_⟩
  · exact readUntil_ne_diverged_aux compile rules pat stream deadline hts
      (deadline + 2) 0 0 [] [] (by omega) (by omega) (by omega)
  · intro hnm hchunk
    rcases readUntil_timeout_aux compile rules pat stream deadline hnm hchunk
        (deadline + 2) 0 0 [] [] with h | h
    · exact absurd h (readUntil_ne_diverged_aux compile rules pat stream deadline hts
        (deadline + 2) 0 0 [] [] (by omega) (by omega) (by omega))
    · exact h
  · intro t d hst hd htd hm hrules
    subst hrules
    have h2 : deadline + 2 = (deadline + 1) + 1 := rfl
    rw [h2, readUntil, if_neg (Nat.not_lt_zero deadline), hst]
    dsimp only
    rw [if_neg hd]
    simp only [processExpectRules, List.nil_append]
    simp [hm]

/-- C6 witness: a stream whose first chunk is the prompt text returns success
with that text; the time hypothesis and the match are discharged concretely. -/
theorem readUntil_termination_witness :
    readUntil litCompile []
      ⟨fun s => litMatch (str "#") s, fun s _ => s⟩
      (fun i => .chunk (i + 1) (str "#")) 5 (5 + 2) 0 0 [] []
      = .ok (str "#") [] :=
  (readUntil_termination_spec litCompile []
      ⟨fun s => litMatch (str "#") s, fun s _ => s⟩
      (fun i => .chunk (i + 1) (str "#")) 5
      (fun i t d hh => by
        injection hh with h1 h2
        omega)).2.2 1 (str "#") rfl (by decide) (by omega) (by decide) rfl

theorem applySecrets_total (compile : CompileFn) (secrets : List FilterRule)
    (h : ∀ r ∈ secrets, (compile r.pat).isSome) :
    ∀ t, applySecrets compile t secrets = .ok (redactTotal compile secrets t) := by
  induction secrets with
  | nil => intro t; rfl
  | cons r rest ih =>
    intro t
    obtain ⟨re, hre⟩ := Option.isSome_iff_exists.mp (h r (List.mem_cons_self _ _))
    have hfold : redactTotal compile (r :: rest) t
        = redactTotal compile rest (re.replaceAllString t r.replace) := by
      simp only [redactTotal, List.foldl_cons, hre]
    rw [applySecrets, hre, hfold]
    exact ih (fun r2 h2 => h r2 (List.mem_cons_of_mem _ h2)) _

theorem applyExpectReplacements_total (compile : CompileFn) (expects : List ExpectRule)
    (h : ∀ r ∈ expects, (compile r.pat).isSome) :
    ∀ t, applyExpectReplacements compile t expects
      = .ok (residualTotal compile expects t) := by
  induction expects with
  | nil => intro t; rfl
  | cons r rest ih =>
    intro t
    by_cases hskip : r.replace = [] ∧ r.send ≠ []
    · have hfold : residualTotal compile (r :: rest) t = residualTotal compile rest t := by
        simp only [residualTotal, List.foldl_cons, if_pos hskip]
      rw [applyExpectReplacements, if_pos hskip, hfold]
      exact ih (fun r2 h2 => h r2 (List.mem_cons_of_mem _ h2)) t
    · obtain ⟨re, hre⟩ := Option.isSome_iff_exists.mp (h r (List.mem_cons_self _ _))
      have hfold : residualTotal compile (r :: rest) t
          = residualTotal compile rest (re.replaceAllString t r.replace) := by
        simp only [residualTotal, List.foldl_cons, if_neg hskip, hre]
      rw [applyExpectReplacements, if_neg hskip, hre, hfold]
      exact ih (fun r2 h2 => h r2 (List.mem_cons_of_mem _ h2)) _

theorem processOutput_total (compile : CompileFn) (model : Model)
    (hs : ∀ r ∈ model.secrets, (compile r.pat).isSome)
    (he : ∀ r ∈ model.expect, (compile r.pat).isSome) (t : Str) :
    processOutput compile t model
      = .ok (residualTotal compile model.expect (redactTotal compile model.secrets t)) := by
  rw [processOutput, applySecrets_total compile model.secrets hs t]
  exact applyExpectReplacements_total compile model.expect he _

theorem processParts_total (compile : CompileFn) (model : Model) (f : Str → Str)
    (hs : ∀ r ∈ model.secrets, (compile r.pat).isSome)
    (he : ∀ r ∈ model.expect, (compile r.pat).isSome) :
    ∀ outs : List Str,
      processParts compile model f outs
        = .ok ((outs.map (fun t =>
            f (residualTotal compile model.expect (redactTotal compile model.secrets t)))).filter
              (fun s => !s.isEmpty)) := by
  intro outs
  induction outs with
  | nil => rfl
  | cons o rest ih =>
    rw [processParts, processOutput_total compile model hs he o]
    show (processParts compile model f rest).bind _ = _
    rw [ih]
    show (if f (residualTotal compile model.expect (redactTotal compile model.secrets o)) = []
        then _ else _) = _
    by_cases hq : f (residualTotal compile model.expect (redactTotal compile model.secrets o)) = []
    · rw [if_pos hq, List.map_cons, List.filter_cons, hq]
      rw [if_neg (by decide)]
      rfl
    · rw [if_neg hq, List.map_cons, List.filter_cons]
      have hcond : (!List.isEmpty
          (f (residualTotal compile model.expect (redactTotal compile model.secrets o))))
            = true := by
        simpa [List.isEmpty_iff] using hq
      rw [if_pos hcond]
      rfl

/-- C5: on a successful device run whose model patterns all compile, the
assembled artifact equals the specification pipeline: redact, then residual
interrupt replacement, then annotate-all-lines for each annotation command and
annotate-boundary-lines for each capture command, keeping only non-empty parts
and joining them with single newlines with all annotation parts first, in
declared command order; the result carries no error. -/
theorem execute_pipeline_spec :
    ∀ (compile : CompileFn) (model : Model) (cos cms : List Str),
      (∀ r ∈ model.secrets, (compile r.pat).isSome) →
      (∀ r ∈ model.expect, (compile r.pat).isSome) →
      ExecuteR compile model (.ok (cos, cms))
        = ⟨pipelineSpec compile model cos cms, none⟩ := by
  intro compile model cos cms hs he
  have ha := processParts_total compile model
    (fun s => commentAllLines s model.comment) hs he cos
  have hb := processParts_total compile model
    (fun s => commentFirstLastLines s model.comment) hs he cms
  have hbuild : buildOutput compile model cos cms = .ok (pipelineSpec compile model cos cms) := by
    rw [buildOutput, ha]
    show (processParts compile model _ cms).bind _ = _
    rw [hb]
    rfl
  rw [ExecuteR, hbuild]

/-- C5 witness: a concrete model (one secret rule, one send-only interrupt
rule, comment "! ") on one annotation output and one capture output. -/
theorem execute_pipeline_witness :
    ExecuteR litCompile
        ⟨str "#", str "! ", [], [], [⟨str "M", str " ", []⟩], [⟨str "pw", str "XX"⟩],
          [str "ver"], [str "run"]⟩
        (.ok ([str "apwb"], [str "alpha\nbeta"]))
      = ⟨str "! aXXb\n! alpha\n! beta", none⟩ := by
  have h := execute_pipeline_spec litCompile
    ⟨str "#", str "! ", [], [], [⟨str "M", str " ", []⟩], [⟨str "pw", str "XX"⟩],
      [str "ver"], [str "run"]⟩
    [str "apwb"] [str "alpha\nbeta"] (by decide) (by decide)
  exact h.trans (by decide)

theorem validateExpectRules_ok_iff (compile : CompileFn) (rules : List ExpectRule) :
    validateExpectRules compile rules = .ok () ↔ ∀ r ∈ rules, (compile r.pat).isSome := by
  induction rules with
  | nil => simp [validateExpectRules]
  | cons r rest ih =>
    rw [validateExpectRules]
    cases hc : compile r.pat with
    | none =>
      dsimp only
      constructor
      · intro h
        exact absurd h (fun hh => Except.noConfusion hh)
      · intro h
        have h2 := h r (List.mem_cons_self _ _)
        rw [hc] at h2
        simp at h2
    | some re =>
      dsimp only
      rw [ih]
      constructor
      · intro h r2 h2
        rcases List.mem_cons.mp h2 with h3 | h3
        · rw [h3, hc]
          rfl
        · exact h r2 h3
      · intro h r2 h2
        exact h r2 (List.mem_cons_of_mem _ h2)

theorem validateSecretRules_ok_iff (compile : CompileFn) (rules : List FilterRule) :
    validateSecretRules compile rules = .ok () ↔ ∀ r ∈ rules, (compile r.pat).isSome := by
  induction rules with
  | nil => simp [validateSecretRules]
  | cons r rest ih =>
    rw [validateSecretRules]
    cases hc : compile r.pat with
    | none =>
      dsimp only
      constructor
      · intro h
        exact absurd h (fun hh => Except.noConfusion hh)
      · intro h
        have h2 := h r (List.mem_cons_self _ _)
        rw [hc] at h2
        simp at h2
    | some re =>
      dsimp only
      rw [ih]
      constructor
      · intro h r2 h2
        rcases List.mem_cons.mp h2 with h3 | h3
        · rw [h3, hc]
          rfl
        · exact h r2 h3
      · intro h r2 h2
        exact h r2 (List.mem_cons_of_mem _ h2)

theorem validateModels_ok (compile : CompileFn) :
    ∀ models : List (Str × Model), validateModels compile models = .ok () →
      ∀ p ∈ models, p.2.prompt ≠ [] ∧ (compile p.2.prompt).isSome ∧
        (∀ r ∈ p.2.expect, (compile r.pat).isSome) ∧
        (∀ r ∈ p.2.secrets, (compile r.pat).isSome) ∧ p.2.commands ≠ [] := by
  intro models
  induction models with
  | nil =>
    intro _ p hp
    simp at hp
  | cons q rest ih =>
    intro h p hp
    obtain ⟨nm, m⟩ := q
    rw [validateModels] at h
    by_cases hpr : m.prompt = []
    · rw [if_pos hpr] at h
      exact absurd h (fun hh => Except.noConfusion hh)
    · rw [if_neg hpr] at h
      cases hc : compile m.prompt with
      | none =>
        rw [hc] at h
        exact absurd h (fun hh => Except.noConfusion hh)
      | some re =>
        rw [hc] at h
        dsimp only at h
        cases hex : validateExpectRules compile m.expect with
        | error e =>
          rw [hex] at h
          exact absurd h (fun hh => Except.noConfusion hh)
        | ok u =>
          rw [hex] at h
          cases u
          dsimp only at h
          cases hsec : validateSecretRules compile m.secrets with
          | error e =>
            rw [hsec] at h
            exact absurd h (fun hh => Except.noConfusion hh)
          | ok u2 =>
            rw [hsec] at h
            cases u2
            dsimp only at h
            by_cases hcmd : m.commands = []
            · rw [if_pos hcmd] at h
              exact absurd h (fun hh => Except.noConfusion hh)
            · rw [if_neg hcmd] at h
              rcases List.mem_cons.mp hp with h3 | h3
              · rw [h3]
                exact ⟨hpr, by rw [hc]; rfl,
                  (validateExpectRules_ok_iff compile m.expect).mp hex,
                  (validateSecretRules_ok_iff compile m.secrets).mp hsec, hcmd⟩
              · exact ih h p h3

/-- C4: a model set that passes loading contains only compilable patterns
(prompt, interrupt and secret rules), and on such a set the whole runtime
filtering pass succeeds for every raw text, so pattern compilation never fails
at runtime; conversely, if any pattern of any model fails to compile, loading
fails with that configuration error and the main flow aborts before any device
task (hence before any connection) exists. -/
theorem validateModelFile_patterns_spec :
    ∀ (compile : CompileFn) (parsed : List (Str × Model)) (devices : List Device)
      (execute : Device → Model → RResult) (write : Device → Str → Option BErr),
      (∀ mf, LoadModelFileM compile parsed = .ok mf →
        mf = parsed ∧
        ∀ p ∈ parsed, (compile p.2.prompt).isSome ∧
          (∀ r ∈ p.2.expect, (compile r.pat).isSome) ∧
          (∀ r ∈ p.2.secrets, (compile r.pat).isSome) ∧
          ∀ raw, processOutput compile raw p.2
            = .ok (residualTotal compile p.2.expect (redactTotal compile p.2.secrets raw))) ∧
      ((∃ p ∈ parsed, compile p.2.prompt = none ∨
          (∃ r ∈ p.2.expect, compile r.pat = none) ∨
          (∃ r ∈ p.2.secrets, compile r.pat = none)) →
        ∃ e, LoadModelFileM compile parsed = .error e ∧
          runMain compile parsed devices execute write = .error e) := by
  intro compile parsed devices ex wr
  have hsound : ∀ mf, LoadModelFileM compile parsed = .ok mf →
      mf = parsed ∧
      ∀ p ∈ parsed, (compile p.2.prompt).isSome ∧
        (∀ r ∈ p.2.expect, (compile r.pat).isSome) ∧
        (∀ r ∈ p.2.secrets, (compile r.pat).isSome) ∧
        ∀ raw, processOutput compile raw p.2
          = .ok (residualTotal compile p.2.expect (redactTotal compile p.2.secrets raw)) := by
    intro mf hmf
    rw [LoadModelFileM] at hmf
    cases hv : validateModelFile compile parsed with
    | error e =>
      rw [hv] at hmf
      exact absurd hmf (fun hh => Except.noConfusion hh)
    | ok u =>
      rw [hv] at hmf
      refine ⟨(Except.ok.inj hmf).symm, ?_⟩
      intro p hp
      cases u
      rw [validateModelFile] at hv
      by_cases hemp : parsed = []
      · rw [hemp] at hp
        simp at hp
      · rw [if_neg hemp] at hv
        obtain ⟨hpr, hprs, hexp, hsec, hcmd⟩ := validateModels_ok compile parsed hv p hp
        exact ⟨hprs, hexp, hsec, fun raw => processOutput_total compile p.2 hsec hexp raw⟩
  refine ⟨hsound, ?_⟩
  intro hbad
  cases hl : LoadModelFileM compile parsed with
  | error e =>
    refine ⟨e, rfl, ?_⟩
    rw [runMain, hl]
  | ok mf =>
    exfalso
    obtain ⟨p, hp, hcase⟩ := hbad
    obtain ⟨hprs, hexp, hsec, _⟩ := (hsound mf hl).2 p hp
    rcases hcase with hc | ⟨r, hr, hc⟩ | ⟨r, hr, hc⟩
    · rw [hc] at hprs
      simp at hprs
    · have h2 := hexp r hr
      rw [hc] at h2
      simp at h2
    · have h2 := hsec r hr
      rw [hc] at h2
      simp at h2

/-- C4 witness: a model whose secret rule pattern "(" does not compile makes
loading fail and the main flow abort with the same configuration error. -/
theorem validateModelFile_patterns_witness :
    runMain litCompile
        [(str "m1", ⟨str "#", [], [], [], [], [⟨str "(", str "X"⟩], [], [str "run"]⟩)]
        [] (fun _ _ => ⟨[], none⟩) (fun _ _ => none)
      = .error (.secretPatternBad (str "(")) := by
  obtain ⟨e, h1, h2⟩ :=
    (validateModelFile_patterns_spec litCompile
        [(str "m1", ⟨str "#", [], [], [], [], [⟨str "(", str "X"⟩], [], [str "run"]⟩)]
        [] (fun _ _ => ⟨[], none⟩) (fun _ _ => none)).2
      ⟨(str "m1", ⟨str "#", [], [], [], [], [⟨str "(", str "X"⟩], [], [str "run"]⟩),
        List.mem_cons_self _ _, Or.inr (Or.inr ⟨⟨str "(", str "X"⟩, List.mem_cons_self _ _, rfl⟩)⟩
  have hconc : LoadModelFileM litCompile
      [(str "m1", ⟨str "#", [], [], [], [], [⟨str "(", str "X"⟩], [], [str "run"]⟩)]
      = .error (.secretPatternBad (str "(")) := rfl
  have he : e = .secretPatternBad (str "(") := by
    have h3 := h1.symm.trans hconc
    injection h3
  rw [← he]
  exact h2

theorem runCmds_error_at (wrap : Str → BErr → BErr) (outcomes : Nat → Except BErr Str) :
    ∀ (cmds : List Str) (start k : Nat) (e : BErr), k < cmds.length →
      outcomes (start + k) = .error e →
      (∀ j, j < k → ∃ o, outcomes (start + j) = .ok o) →
      runCmds wrap outcomes start cmds = .error (wrap (cmds.getD k []) e) := by
  intro cmds
  induction cmds with
  | nil =>
    intro start k e hk
    simp at hk
  | cons c rest ih =>
    intro start k e hk herr hok
    cases k with
    | zero =>
      rw [runCmds]
      rw [show start + 0 = start from rfl] at herr
      rw [herr]
      rfl
    | succ k2 =>
      obtain ⟨o, ho⟩ := hok 0 (by omega)
      rw [show start + 0 = start from rfl] at ho
      rw [runCmds, ho]
      have herr2 : outcomes (start + 1 + k2) = .error e := by
        rw [show start + 1 + k2 = start + (k2 + 1) by omega]
        exact herr
      have hok2 : ∀ j, j < k2 → ∃ o2, outcomes (start + 1 + j) = .ok o2 := by
        intro j hj
        obtain ⟨o2, ho2⟩ := hok (j + 1) (by omega)
        exact ⟨o2, by rw [show start + 1 + j = start + (j + 1) by omega]; exact ho2⟩
      rw [ih (start + 1) k2 e (by simpa using hk) herr2 hok2]
      rfl

theorem runCmds_all_ok (wrap : Str → BErr → BErr) (outcomes : Nat → Except BErr Str) :
    ∀ (cmds : List Str) (start : Nat),
      (∀ j, j < cmds.length → ∃ o, outcomes (start + j) = .ok o) →
      ∃ os, runCmds wrap outcomes start cmds = .ok os := by
  intro cmds
  induction cmds with
  | nil =>
    intro start _
    exact ⟨[], rfl⟩
  | cons c rest ih =>
    intro start hok
    obtain ⟨o, ho⟩ := hok 0 (by simp)
    rw [show start + 0 = start from rfl] at ho
    obtain ⟨os, hos⟩ := ih (start + 1) (fun j hj => by
      obtain ⟨o2, ho2⟩ := hok (j + 1) (by simpa using Nat.succ_lt_succ hj)
      exact ⟨o2, by rw [show start + 1 + j = start + (j + 1) by omega]; exact ho2⟩)
    refine ⟨o :: os, ?_⟩
    rw [runCmds, ho, hos]

/-- C9: if the k-th command execution of a device fails (for example with a
Timeout) while all earlier ones succeeded, the transport phase returns that
error, the device result records the error with an empty output (partial
captured output is discarded), the remaining commands are never consulted
(the result is fixed by the outcomes up to k), and every other device's entry
in the orchestrator's result list depends only on that device's own run. -/
theorem execute_command_failure_spec :
    ∀ (compile : CompileFn) (model : Model) (outcomes : Nat → Except BErr Str)
      (k : Nat) (e : BErr),
      k < model.comments.length + model.commands.length →
      outcomes k = .error e →
      (∀ j, j < k → ∃ o, outcomes j = .ok o) →
      ∃ e2,
        ConnectAndExecuteM (.ok ()) outcomes model = .error e2 ∧
        (∀ outcomes2 : Nat → Except BErr Str, (∀ j, j ≤ k → outcomes2 j = outcomes j) →
          ConnectAndExecuteM (.ok ()) outcomes2 model = .error e2) ∧
        ExecuteR compile model (ConnectAndExecuteM (.ok ()) outcomes model)
          = ⟨[], some e2⟩ ∧
        (∀ (find : Str → Option Model) (devices : List Device)
            (ex ex2 : Device → Model → RResult) (wr wr2 : Device → Str → Option BErr)
            (i : Nat) (d : Device), devices[i]? = some d → ex d = ex2 d → wr d = wr2 d →
          (executeBackupsM find devices ex wr)[i]?
            = (executeBackupsM find devices ex2 wr2)[i]?) := by
  intro compile model outcomes k e hk herr hok
  by_cases hkc : k < model.comments.length
  · refine ⟨.commentCmdFailed (model.comments.getD k []) e, ?_, ?_, ?_, ?_⟩
    · rw [ConnectAndExecuteM,
        runCmds_error_at BErr.commentCmdFailed outcomes model.comments 0 k e hkc
          (by simpa using herr) (by simpa using hok)]
    · intro outcomes2 hagree
      rw [ConnectAndExecuteM,
        runCmds_error_at BErr.commentCmdFailed outcomes2 model.comments 0 k e hkc
          (by simpa using (hagree k (by omega)).trans herr)
          (fun j hj => by
            obtain ⟨o, ho⟩ := hok j hj
            exact ⟨o, by simpa using (hagree j (by omega)).trans ho⟩)]
    · rw [ConnectAndExecuteM,
        runCmds_error_at BErr.commentCmdFailed outcomes model.comments 0 k e hkc
          (by simpa using herr) (by simpa using hok)]
      rfl
    · intro find devices ex ex2 wr wr2 i d hd hex hwr
      rw [executeBackupsM, executeBackupsM, List.getElem?_map, List.getElem?_map, hd]
      simp only [Option.map_some']
      cases hfm : find d.model with
      | none => rfl
      | some m =>
        dsimp only
        rw [runDeviceTask, runDeviceTask, hex, hwr]
  · have hkc2 : model.comments.length ≤ k := Nat.le_of_not_lt hkc
    have hcos : ∃ os, runCmds BErr.commentCmdFailed outcomes 0 model.comments = .ok os :=
      runCmds_all_ok _ outcomes model.comments 0 (fun j hj => by
        simpa using hok j (by omega))
    obtain ⟨cos, hcosr⟩ := hcos
    have herr2 : outcomes (model.comments.length + (k - model.comments.length)) = .error e := by
      rw [show model.comments.length + (k - model.comments.length) = k by omega]
      exact herr
    have hok2 : ∀ j, j < k - model.comments.length →
        ∃ o, outcomes (model.comments.length + j) = .ok o := by
      intro j hj
      exact hok (model.comments.length + j) (by omega)
    have hcmds := runCmds_error_at BErr.cmdFailed outcomes model.commands
      model.comments.length (k - model.comments.length) e (by omega) herr2 hok2
    refine ⟨.cmdFailed (model.commands.getD (k - model.comments.length) []) e, ?_, ?_, ?_, ?_⟩
    · rw [ConnectAndExecuteM, hcosr, hcmds]
    · intro outcomes2 hagree
      have hcos2 : ∃ os, runCmds BErr.commentCmdFailed outcomes2 0 model.comments = .ok os :=
        runCmds_all_ok _ outcomes2 model.comments 0 (fun j hj => by
          obtain ⟨o, ho⟩ := hok j (by omega)
          exact ⟨o, by simpa using ((hagree j (by omega)).trans (by simpa using ho))⟩)
      obtain ⟨cos2, hcosr2⟩ := hcos2
      have herr3 : outcomes2 (model.comments.length + (k - model.comments.length))
          = .error e := by
        rw [show model.comments.length + (k - model.comments.length) = k by omega]
        exact (hagree k (by omega)).trans herr
      have hok3 : ∀ j, j < k - model.comments.length →
          ∃ o, outcomes2 (model.comments.length + j) = .ok o := by
        intro j hj
        obtain ⟨o, ho⟩ := hok (model.comments.length + j) (by omega)
        exact ⟨o, (hagree (model.comments.length + j) (by omega)).trans ho⟩
      have hcmds2 := runCmds_error_at BErr.cmdFailed outcomes2 model.commands
        model.comments.length (k - model.comments.length) e (by omega) herr3 hok3
      rw [ConnectAndExecuteM, hcosr2, hcmds2]
    · rw [ConnectAndExecuteM, hcosr, hcmds]
      rfl
    · intro find devices ex ex2 wr wr2 i d hd hex hwr
      rw [executeBackupsM, executeBackupsM, List.getElem?_map, List.getElem?_map, hd]
      simp only [Option.map_some']
      cases hfm : find d.model with
      | none => rfl
      | some m =>
        dsimp only
        rw [runDeviceTask, runDeviceTask, hex, hwr]

/-- C9 witness: a device whose second command (the first capture command)
times out gets an error result with empty output. -/
theorem execute_command_failure_witness :
    ExecuteR litCompile ⟨str "#", [], [], [], [], [], [str "c1"], [str "r1"]⟩
        (ConnectAndExecuteM (.ok ())
          (fun n => if n = 0 then .ok (str "o") else .error .timeout)
          ⟨str "#", [], [], [], [], [], [str "c1"], [str "r1"]⟩)
      = ⟨[], some (.cmdFailed (str "r1") .timeout)⟩ := by
  obtain ⟨e2, h1, h2, h3, h4⟩ :=
    execute_command_failure_spec litCompile ⟨str "#", [], [], [], [], [], [str "c1"], [str "r1"]⟩
      (fun n => if n = 0 then .ok (str "o") else .error .timeout) 1 .timeout
      (by decide) rfl
      (fun j hj => ⟨str "o", by
        have hj0 : j = 0 := by omega
        rw [hj0]
        rfl⟩)
  have hconc : ConnectAndExecuteM (.ok ())
      (fun n => if n = 0 then .ok (str "o") else .error .timeout)
      ⟨str "#", [], [], [], [], [], [str "c1"], [str "r1"]⟩
      = .error (.cmdFailed (str "r1") .timeout) := rfl
  have he : e2 = .cmdFailed (str "r1") .timeout := by
    have h5 := h1.symm.trans hconc
    injection h5
  rw [← he]
  exact h3

/-- C7: the orchestrator produces exactly one result per device; a device
whose model name is not in the loaded model set gets an immediate
model-not-found configuration error whose value does not depend on the
execute or write functions at all (no connection is attempted), while every
device with a valid model gets exactly the result of its own device task. -/
theorem executeBackups_results_spec :
    ∀ (models : Str → Option Model) (devices : List Device)
      (execute : Device → Model → RResult) (write : Device → Str → Option BErr),
      (executeBackupsM models devices execute write).length = devices.length ∧
      ∀ (i : Nat) (d : Device), devices[i]? = some d →
        (models d.model = none →
          ∀ (execute2 : Device → Model → RResult) (write2 : Device → Str → Option BErr),
            (executeBackupsM models devices execute2 write2)[i]?
              = some ⟨d, [], some (.modelNotFound d.model)⟩) ∧
        (∀ m, models d.model = some m →
          (executeBackupsM models devices execute write)[i]?
            = some (runDeviceTask execute write d m)) := by
  intro models devices ex wr
  refine ⟨by rw [executeBackupsM]; exact List.length_map _ _, ?_⟩
  intro i d hd
  constructor
  · intro hnone ex2 wr2
    rw [executeBackupsM, List.getElem?_map, hd]
    simp only [Option.map_some']
    rw [hnone]
  · intro m hm
    rw [executeBackupsM, List.getElem?_map, hd]
    simp only [Option.map_some']
    rw [hm]

/-- C7 witness: of two devices, the one naming a missing model gets the
configuration-error result (for any execute and write functions) and the one
with a valid model gets its task result; the list has one entry per device. -/
theorem executeBackups_results_witness :
    (executeBackupsM (fun nm => if nm = str "good" then some ⟨str "#", [], [], [], [], [], [], [str "r"]⟩ else none)
        [⟨str "d1", str "ip1", str "bad", str "g"⟩, ⟨str "d2", str "ip2", str "good", str "g"⟩]
        (fun _ _ => ⟨str "out", none⟩) (fun _ _ => none)).length = 2 ∧
      (executeBackupsM (fun nm => if nm = str "good" then some ⟨str "#", [], [], [], [], [], [], [str "r"]⟩ else none)
        [⟨str "d1", str "ip1", str "bad", str "g"⟩, ⟨str "d2", str "ip2", str "good", str "g"⟩]
        (fun _ _ => ⟨str "out", none⟩) (fun _ _ => none))[0]?
        = some ⟨⟨str "d1", str "ip1", str "bad", str "g"⟩, [],
            some (.modelNotFound (str "bad"))⟩ := by
  have h := executeBackups_results_spec
    (fun nm => if nm = str "good" then some ⟨str "#", [], [], [], [], [], [], [str "r"]⟩ else none)
    [⟨str "d1", str "ip1", str "bad", str "g"⟩, ⟨str "d2", str "ip2", str "good", str "g"⟩]
    (fun _ _ => ⟨str "out", none⟩) (fun _ _ => none)
  refine ⟨h.1, ?_⟩
  exact (h.2 0 ⟨str "d1", str "ip1", str "bad", str "g"⟩ rfl).1 (by decide)
    (fun _ _ => ⟨str "out", none⟩) (fun _ _ => none)

end Netback
